import Mathlib

/-!
Verification of `speechbrain/utils/data_utils.py` (extended-YAML engine):
a shallow embedding of `recursive_update`, `deref`, `_recursive_resolve`,
`object_constructor` and `obj_and_ref_constructor`, with theorems checking
the specification's claims about them.

Modelling conventions:
* Python values flowing through the resolver are modelled by `Val`
  (ints, strings, mappings as association lists, and ruamel-tagged nodes).
* Python exceptions are explicit error values (`PyExc`); an uncaught
  exception is `.error e`.
* Unbounded Python recursion is modelled with a fuel parameter (Python
  itself has a recursion limit); running out of fuel is the distinguished
  error `.fuelOut`, which no claim identifies with a genuine outcome.
* `logger.error` calls are no-ops for the value semantics and are not
  modelled; the hard failures come from the indexing / raise statements.
-/

set_option maxRecDepth 4000

/-- First-match association-list lookup: the model of Python `d[k]` /
`k in d` on dictionaries (dict keys are unique, so first match is THE
match). -/
def alook {α β : Type} [DecidableEq α] : List (α × β) → α → Option β
  | [], _ => none
  | (k, v) :: rest, key => if k = key then some v else alook rest key

/-- In-place association-list update: the model of Python `d[k] = v` on a
dict — an existing key keeps its position, a new key is appended (Python
3.7+ insertion order). -/
def aset {α β : Type} [DecidableEq α] : List (α × β) → α → β → List (α × β)
  | [], key, val => [(key, val)]
  | (k, v) :: rest, key, val =>
    if k = key then (key, val) :: rest else (k, v) :: aset rest key val

theorem alook_aset_self {α β : Type} [DecidableEq α]
    (l : List (α × β)) (k : α) (v : β) : alook (aset l k v) k = some v := by
  induction l with
  | nil => simp [alook, aset]
  | cons kv rest ih =>
    rcases kv with ⟨a, b⟩
    by_cases h : a = k
    · simp [aset, h, alook]
    · simp [aset, h, alook, ih]

theorem alook_aset_ne {α β : Type} [DecidableEq α]
    (l : List (α × β)) (k k' : α) (v : β) (h : k' ≠ k) :
    alook (aset l k v) k' = alook l k' := by
  have hkk : ¬k = k' := fun hh => h hh.symm
  induction l with
  | nil => simp [alook, aset, hkk]
  | cons kv rest ih =>
    rcases kv with ⟨a, b⟩
    by_cases hak : a = k
    · subst hak
      simp [aset, alook, hkk]
    · by_cases hak' : a = k'
      · subst hak'
        simp [aset, alook, h, hak]
      · simp [aset, alook, hak, hak', ih]

theorem alook_mem {α β : Type} [DecidableEq α]
    (l : List (α × β)) (k : α) (v : β) :
    alook l k = some v → (k, v) ∈ l := by
  induction l with
  | nil => intro h; simp [alook] at h
  | cons kv rest ih =>
    rcases kv with ⟨a, b⟩
    intro h
    by_cases hak : a = k
    · subst hak
      simp [alook] at h
      subst h
      exact List.mem_cons_self _ _
    · simp [alook, hak] at h
      exact List.mem_cons_of_mem _ (ih h)

theorem alook_eq_none {α β : Type} [DecidableEq α]
    (l : List (α × β)) (k : α) :
    alook l k = none → k ∉ l.map Prod.fst := by
  induction l with
  | nil => intro _; simp
  | cons kv rest ih =>
    rcases kv with ⟨a, b⟩
    intro h
    by_cases hak : a = k
    · simp [alook, hak] at h
    · simp [alook, hak] at h
      simp only [List.map_cons, List.mem_cons]
      rintro (hh | hh)
      · exact hak hh.symm
      · exact ih h hh

theorem aset_mem {α β : Type} [DecidableEq α]
    (l : List (α × β)) (k : α) (v : β) (p : α × β) :
    p ∈ aset l k v → p ∈ l ∨ p = (k, v) := by
  induction l with
  | nil => intro h; simp [aset] at h; simp [h]
  | cons kv rest ih =>
    rcases kv with ⟨a, b⟩
    intro h
    by_cases hak : a = k
    · simp [aset, hak] at h
      rcases h with h | h
      · right; simp [h]
      · left; simp [h]
    · simp [aset, hak] at h
      rcases h with h | h
      · left; simp [h]
      · rcases ih h with h' | h'
        · left; simp [h']
        · right; exact h'

/-- A node of the loaded document / a Python value handled by the resolver:
ints, strings, dicts (ruamel `CommentedMap`), and nodes carrying a ruamel
tag (`.tag.value` is the stored string, including its leading `!`). -/
inductive Val where
  | vint : Int → Val
  | vstr : String → Val
  | vmap : List (String × Val) → Val
  | vtagged : String → Val → Val

/-- Python `str.split('.')` on everything after the leading `$`
(`ref[1:].split('.')`): splits on every dot, keeping empty segments, and
yields `[""]` for the empty string — exactly CPython semantics. -/
def splitDotAux : List Char → List Char → List String
  | [], acc => [String.mk acc.reverse]
  | c :: cs, acc =>
    if c = '.' then String.mk acc.reverse :: splitDotAux cs []
    else splitDotAux cs (c :: acc)

def splitDot (s : String) : List String := splitDotAux s.toList []

/-- Resolver-level Python exceptions. -/
inductive PyExc where
  | keyError : String → PyExc       -- `preview[part]` with a missing key
  | typeError : PyExc               -- indexing / regex-matching a non-mapping / non-string
  | circular : List String → PyExc  -- ValueError("Circular reference detected: ", chain)
  | unknownClass : String → PyExc   -- ValueError("There is no such class as %s")
  | bindError : String → PyExc      -- TypeError raised by inspect Signature bind
  | nodeError : PyExc               -- yaml ConstructorError (construct_scalar on a non-scalar)
  | fuelOut : PyExc                 -- recursion bound exhausted (model artifact)
deriving DecidableEq

/-- The dict entries a value exposes to `part in preview` / `preview[part]`:
plain dicts and tagged dicts behave as mappings, everything else raises
TypeError when indexed by a string. -/
def mapEntries : Val → Option (List (String × Val))
  | .vmap l => some l
  | .vtagged _ (.vmap l) => some l
  | _ => none

/-- One step of the loop in `deref`:
`if part not in preview: logger.error(...)` (a no-op for the value
semantics) followed by `preview = preview[part]`, which raises
`KeyError(part)` when the key is absent and `TypeError` when `preview`
is not a mapping. -/
def lookStep (v : Val) (part : String) : Except PyExc Val :=
  match mapEntries v with
  | some l =>
    match alook l part with
    | some v' => .ok v'
    | none => .error (.keyError part)
  | none => .error .typeError

/-- The reference-walking loop of `deref`, over the already-split path. -/
def walkRef : Val → List String → Except PyExc Val
  | v, [] => .ok v
  | v, part :: rest =>
    match lookStep v part with
    | .ok v' => walkRef v' rest
    | .error e => .error e

/-- `deref(ref, preview)` from `data_utils.py`: follow the dot-separated
path `ref[1:].split('.')` through the document, then — the
`try: preview = preview.tag.value[1:] except AttributeError: pass` block —
if the final node carries a ruamel tag, return the tag string without its
leading character (so a node tagged `!$a` dereferences to the string
`$a`). -/
def deref (ref : String) (preview : Val) : Except PyExc Val :=
  match walkRef preview (splitDot (String.mk (ref.toList.drop 1))) with
  | .error e => .error e
  | .ok v =>
    match v with
    | .vtagged t _ => .ok (.vstr (String.mk (t.toList.drop 1)))
    | w => .ok w

/-- A character matched by `[\w.]` in the pattern `\$[\w.]+` (ASCII
reading of `\w`; every reference in the repository is ASCII). -/
def refChar (c : Char) : Bool := c.isAlphanum || c = '_' || c = '.'

/-- `re.fullmatch(r'\$[\w.]+', s)`: the whole string is `$` followed by at
least one word-or-dot character. -/
def fullmatchB (s : String) : Bool :=
  match s.toList with
  | '$' :: c :: cs => refChar c && cs.all refChar
  | _ => false

/-- Helper for `findRuns`: the optional accumulator holds the (reversed)
word-run of a match currently being read, i.e. we have consumed a `$` and
`acc.reverse` of its following `[\w.]` characters. -/
def findRunsAux : List Char → Option (List Char) → List String
  | [], none => []
  | [], some acc => if acc.isEmpty then [] else [String.mk ('$' :: acc.reverse)]
  | c :: cs, none =>
    if c = '$' then findRunsAux cs (some []) else findRunsAux cs none
  | c :: cs, some acc =>
    if refChar c then findRunsAux cs (some (c :: acc))
    else
      (if acc.isEmpty then [] else [String.mk ('$' :: acc.reverse)]) ++
        (if c = '$' then findRunsAux cs (some []) else findRunsAux cs none)

/-- `re.findall(r'\$[\w.]+', s)`: the maximal non-overlapping matches, left
to right (each is a `$` followed by a maximal nonempty run of `[\w.]`). -/
def findRuns (s : String) : List String := findRunsAux s.toList none

/-- Nesting depth of a value; used only to feed `pyReprD` a sufficient
bound. -/
def vdepth : Val → Nat
  | .vint _ => 1
  | .vstr _ => 1
  | .vtagged _ w => vdepth w + 1
  | .vmap [] => 1
  | .vmap ((_, v) :: rest) => max (vdepth v) (vdepth (.vmap rest)) + 1

/-- Python `repr` of a value, depth-bounded (the bound is only a totality
device; `vdepth` always over-approximates the depth).  String escaping
inside reprs is not reproduced (no claim depends on it); `\x7b`/`\x7d` are
literal braces and `\x27` a literal quote. -/
def pyReprD : Nat → Val → String
  | 0, _ => ""
  | fuel + 1, v =>
    match v with
    | .vint n => toString n
    | .vstr s => "\x27" ++ s ++ "\x27"
    | .vtagged _ w => pyReprD fuel w
    | .vmap l =>
      "\x7b" ++
        String.intercalate ", "
          (l.map (fun kv => "\x27" ++ kv.1 ++ "\x27: " ++ pyReprD fuel kv.2)) ++
        "\x7d"

/-- Python `str(x)`: the identity on strings, decimal rendering of ints,
`repr`-style rendering of containers. -/
def pyStr : Val → String
  | .vstr s => s
  | .vint n => toString n
  | w => pyReprD (vdepth w) w

/-- `'$' in str(reference)`. -/
def hasDollar (v : Val) : Bool := (pyStr v).toList.contains '$'

/-- `'$' in tag_suffix` for a plain Python string. -/
def strHasDollar (s : String) : Bool := s.toList.contains '$'

/-- `reference_finder.sub(replace_fn, reference)` with
`replace_fn = lambda x: str(deref(x[0], preview))`: scan the string, and
replace every maximal `\$[\w.]+` match by the stringified dereferenced
value; a `KeyError` raised by `deref` propagates (matches are replaced
left to right).  The accumulator is as in `findRunsAux`. -/
def subRefsAux (preview : Val) : List Char → Option (List Char) → Except PyExc (List Char)
  | [], none => .ok []
  | [], some acc =>
    if acc.isEmpty then .ok ['$']
    else
      match deref (String.mk ('$' :: acc.reverse)) preview with
      | .error e => .error e
      | .ok v => .ok (pyStr v).toList
  | c :: cs, none =>
    if c = '$' then subRefsAux preview cs (some [])
    else
      match subRefsAux preview cs none with
      | .error e => .error e
      | .ok out => .ok (c :: out)
  | c :: cs, some acc =>
    if refChar c then subRefsAux preview cs (some (c :: acc))
    else if acc.isEmpty then
      if c = '$' then
        match subRefsAux preview cs (some []) with
        | .error e => .error e
        | .ok out => .ok ('$' :: out)
      else
        match subRefsAux preview cs none with
        | .error e => .error e
        | .ok out => .ok ('$' :: c :: out)
    else
      match deref (String.mk ('$' :: acc.reverse)) preview with
      | .error e => .error e
      | .ok v =>
        match
          (if c = '$' then subRefsAux preview cs (some [])
           else
             match subRefsAux preview cs none with
             | .error e => .error e
             | .ok out => .ok (c :: out)) with
        | .error e => .error e
        | .ok out => .ok ((pyStr v).toList ++ out)

def subRefs (preview : Val) (s : String) : Except PyExc String :=
  match subRefsAux preview s.toList none with
  | .error e => .error e
  | .ok out => .ok (String.mk out)

/-- `_recursive_resolve(reference, reference_list, preview)` from
`data_utils.py`, fuel-bounded.  Faithful details:
* the circular check `reference in reference_list[1:]` only fires once the
  list has more than one entry, and only a string can equal the stored
  strings;
* the raised ValueError carries `reference_list` as its detail;
* a full `\$[\w.]+` match dereferences (type-preserving) and appends the
  whole reference to the chain;
* otherwise each `findall` match contributes `match[0]` to the chain —
  `findall` returns plain strings here, so `match[0]` is the first
  CHARACTER, i.e. `"$"`, exactly as the source does it — and the
  interpolated string is resolved again;
* `re.fullmatch` on a non-string argument raises TypeError. -/
def recursive_resolve : Nat → Val → List String → Val → Except PyExc Val
  | 0, _, _, _ => .error .fuelOut
  | fuel + 1, reference, refList, preview =>
    let isCirc :=
      match reference with
      | .vstr s => decide (refList.length > 1) && (refList.drop 1).contains s
      | _ => false
    if isCirc then .error (.circular refList)
    else if hasDollar reference = false then .ok reference
    else
      match reference with
      | .vstr s =>
        if fullmatchB s then
          match deref s preview with
          | .error e => .error e
          | .ok value => recursive_resolve fuel value (refList ++ [s]) preview
        else
          let refList' := refList ++ (findRuns s).map (fun _ => "$")
          match subRefs preview s with
          | .error e => .error e
          | .ok out => recursive_resolve fuel (.vstr out) refList' preview
      | _ => .error .typeError

/-- The document of the chained-reference examples:
`{a: 3, b: "$a", c: "$b/$b"}` (the doctest of `_recursive_resolve`). -/
def doc45 : Val := .vmap [("a", .vint 3), ("b", .vstr "$a"), ("c", .vstr "$b/$b")]

/-- The two-cycle document `{x: "$y", y: "$x"}`. -/
def doc3 : Val := .vmap [("x", .vstr "$y"), ("y", .vstr "$x")]

/-- Claim C4: on `{a: 3, b: "$a"}`, resolving the full-match reference
`"$b"` follows the chain `b -> a` and returns the native integer `3`, not
the string `"3"`. -/
theorem resolve_full_match_preserves_type :
    recursive_resolve 10 (.vstr "$b") [] doc45 = .ok (.vint 3) := rfl

/-- Claim C5: on `{a: 3, b: "$a", c: "$b/$b"}`, resolving `"$c"` reaches
the interpolation string `"$b/$b"`, replaces each embedded reference by
the string rendering of its dereferenced value, recursively resolves the
substituted string, and returns the string `"3/3"`. -/
theorem resolve_interpolation_stringifies :
    recursive_resolve 10 (.vstr "$c") [] doc45 = .ok (.vstr "3/3") := rfl

/-- Claim C3: on `{x: "$y", y: "$x"}`, resolving `"$x"` from an empty
context fails with the circular-reference error, whose detail carries the
chain of references visited (`["$x", "$y", "$x"]`). -/
theorem resolve_two_cycle_circular :
    recursive_resolve 10 (.vstr "$x") [] doc3 =
      .error (.circular ["$x", "$y", "$x"]) := rfl

theorem walkRef_append (pre rest : List String) (v : Val) :
    walkRef v (pre ++ rest) =
      match walkRef v pre with
      | .ok w => walkRef w rest
      | .error e => .error e := by
  induction pre generalizing v with
  | nil => simp [walkRef]
  | cons p ps ih =>
    simp only [List.cons_append, walkRef]
    cases lookStep v p with
    | ok w => exact ih w
    | error e => rfl

theorem fullmatch_starts_dollar (s : String) (h : fullmatchB s = true) :
    ∃ cs, s.toList = '$' :: cs := by
  unfold fullmatchB at h
  cases hc : s.toList with
  | nil => rw [hc] at h; simp at h
  | cons c cs =>
    rw [hc] at h
    by_cases hd : c = '$'
    · exact ⟨cs, by rw [hd]⟩
    · exfalso
      have : (c = '$') = False := by simp [hd]
      simp [hd] at h
theorem fullmatch_has_dollar (s : String) (h : fullmatchB s = true) :
    hasDollar (.vstr s) = true := by
  obtain ⟨cs, hc⟩ := fullmatch_starts_dollar s h
  show (pyStr (.vstr s)).toList.contains '$' = true
  have hl : (pyStr (.vstr s)).toList = '$' :: cs := hc
  rw [hl]
  simp [List.contains, List.elem]

/-- Claim C1: a reference whose dot-separated path hits a missing segment
(a prefix of the path walks to a mapping `ctx` that lacks the next
segment `part`) makes `deref` fail hard with the key error naming exactly
that segment — it never returns a value — and a full-match
`_recursive_resolve` of that reference propagates the same failure. -/
theorem deref_missing_segment_fails
    (ref : String) (preview ctx : Val) (l : List (String × Val))
    (pre mid : List String) (part : String)
    (hsplit : splitDot (String.mk (ref.toList.drop 1)) = pre ++ part :: mid)
    (hwalk : walkRef preview pre = .ok ctx)
    (hmap : mapEntries ctx = some l)
    (hmiss : alook l part = none) :
    deref ref preview = .error (.keyError part) ∧
    ∀ fuel, fullmatchB ref = true →
      recursive_resolve (fuel + 1) (.vstr ref) [] preview =
        .error (.keyError part) := by
  have hstep : lookStep ctx part = .error (.keyError part) := by
    unfold lookStep
    rw [hmap]
    show (match alook l part with
          | some v' => Except.ok v'
          | none => Except.error (PyExc.keyError part)) = _
    rw [hmiss]
  have hw : walkRef preview (pre ++ part :: mid) = .error (.keyError part) := by
    rw [walkRef_append, hwalk]
    show walkRef ctx (part :: mid) = _
    unfold walkRef
    rw [hstep]
  have hderef : deref ref preview = .error (.keyError part) := by
    unfold deref
    rw [hsplit, hw]
  refine ⟨hderef, fun fuel hfm => ?_⟩
  have hd : hasDollar (.vstr ref) = true := fullmatch_has_dollar ref hfm
  unfold recursive_resolve
  simp [hd, hfm, hderef]

/-- The document `{a: {b: 1}}` used to witness the missing-segment claim
with the dangling reference `$a.q`. -/
def previewC1 : Val := .vmap [("a", .vmap [("b", .vint 1)])]

theorem deref_missing_segment_fails_witness :
    alook [("b", Val.vint 1)] "q" = none ∧
    deref "$a.q" previewC1 = .error (.keyError "q") ∧
    recursive_resolve 3 (.vstr "$a.q") [] previewC1 = .error (.keyError "q") :=
  ⟨rfl,
   (deref_missing_segment_fails "$a.q" previewC1 (.vmap [("b", .vint 1)])
      [("b", .vint 1)] ["a"] [] "q" rfl rfl rfl rfl).1,
   (deref_missing_segment_fails "$a.q" previewC1 (.vmap [("b", .vint 1)])
      [("b", .vint 1)] ["a"] [] "q" rfl rfl rfl rfl).2 2 rfl⟩
/-- A constructor parameter as seen by `inspect.signature`: its name and
whether it carries a default (varargs / keyword-only parameters do not
occur in the modelled configurations). -/
structure Param where
  name : String
  hasDefault : Bool
deriving DecidableEq

/-- A class reachable by `pydoc.locate`, reduced to what
`object_constructor` consumes: its declared parameter list, in order. -/
structure PyClass where
  params : List Param
deriving DecidableEq

/-- The number of defaultless (required) parameters. -/
def requiredCount (ps : List Param) : Nat :=
  (ps.filter (fun p => !p.hasDefault)).length

/-- `signature.bind(*args).arguments`: bind positional arguments to the
declared parameters in order.  Surplus arguments raise
`TypeError('too many positional arguments')`; an exhausted argument list
with a defaultless parameter remaining raises
`TypeError('missing a required argument: ...')` — the checks
`inspect.Signature.bind` performs before any constructor can run. -/
def bindArgs : List Param → List Val → Except PyExc (List (String × Val))
  | [], [] => .ok []
  | [], _ :: _ => .error (.bindError "too many positional arguments")
  | p :: ps, [] =>
    if p.hasDefault then bindArgs ps []
    else .error (.bindError ("missing a required argument: " ++ p.name))
  | p :: ps, a :: args =>
    match bindArgs ps args with
    | .ok r => .ok ((p.name, a) :: r)
    | .error e => .error e

/-- A tagged node's body, its children already constructed
(`construct_mapping(node, deep=True)` / `construct_sequence(node, deep=True)`
turn them into final values before binding). -/
inductive YNode where
  | scalar : String → YNode
  | sequence : List Val → YNode
  | mapping : List (String × Val) → YNode

/-- The outcome of `class_(**kwargs)`, kept symbolic: the located class
name together with the keyword bindings it is invoked with (the callee's
own behaviour is external to this module). -/
inductive Obj where
  | mk : String → List (String × Val) → Obj

/-- `object_constructor(loader, tag_suffix, node)`: locate the class by
its dotted name (`pydoc.locate`, modelled as a lookup in the ambient
registry of importable names; `None` raises
`ValueError('There is no such class as ...')`).  A mapping node binds its
pairs as keywords, a sequence node binds positionally through
`signature.bind`, any other node leaves `kwargs` empty. -/
def object_constructor (registry : List (String × PyClass)) (tag_suffix : String)
    (node : YNode) : Except PyExc Obj :=
  match alook registry tag_suffix with
  | none => .error (.unknownClass tag_suffix)
  | some cls =>
    match node with
    | .mapping kvs => .ok (.mk tag_suffix kvs)
    | .sequence args =>
      match bindArgs cls.params args with
      | .ok kwargs => .ok (.mk tag_suffix kwargs)
      | .error e => .error e
    | .scalar _ => .ok (.mk tag_suffix [])

theorem bindArgs_too_many (ps : List Param) (args : List Val)
    (h : ps.length < args.length) :
    ∃ m, bindArgs ps args = .error (.bindError m) := by
  induction ps generalizing args with
  | nil =>
    cases args with
    | nil => simp at h
    | cons a as => exact ⟨_, rfl⟩
  | cons p ps ih =>
    cases args with
    | nil => simp at h
    | cons a as =>
      have h' : ps.length < as.length := by
        simp only [List.length_cons] at h
        omega
      obtain ⟨m, hm⟩ := ih as h'
      exact ⟨m, by simp [bindArgs, hm]⟩

theorem requiredCount_cons (p : Param) (ps : List Param) :
    requiredCount (p :: ps) =
      requiredCount ps + (if p.hasDefault then 0 else 1) := by
  cases hd : p.hasDefault <;> simp [requiredCount, List.filter_cons, hd]

theorem bindArgs_missing (ps : List Param) (args : List Val)
    (h : args.length < requiredCount ps) :
    ∃ m, bindArgs ps args = .error (.bindError m) := by
  induction ps generalizing args with
  | nil => simp [requiredCount] at h
  | cons p ps ih =>
    cases args with
    | nil =>
      cases hd : p.hasDefault with
      | true =>
        have h0 : 0 < requiredCount ps := by
          rw [requiredCount_cons, hd] at h
          simpa using h
        obtain ⟨m, hm⟩ := ih [] (by simpa using h0)
        exact ⟨m, by simp [bindArgs, hd, hm]⟩
      | false =>
        exact ⟨"missing a required argument: " ++ p.name, by simp [bindArgs, hd]⟩
    | cons a as =>
      have h' : as.length < requiredCount ps := by
        rw [requiredCount_cons] at h
        simp only [List.length_cons] at h
        cases hd : p.hasDefault <;> rw [hd] at h <;> simp at h <;> omega
      obtain ⟨m, hm⟩ := ih as h'
      exact ⟨m, by simp [bindArgs, hm]⟩

/-- Claim C7: a tagged node with a sequence body whose element count does
not fit the located constructor's declared parameters (more elements than
parameters, or fewer than the defaultless ones) makes
`object_constructor` fail with the binding error raised by
`signature.bind`; it is an `.error` outcome, so no argument is silently
dropped or truncated and the constructor itself is never invoked. -/
theorem object_constructor_arity_mismatch_fails
    (registry : List (String × PyClass)) (tag_suffix : String) (cls : PyClass)
    (args : List Val)
    (hloc : alook registry tag_suffix = some cls)
    (hmismatch : cls.params.length < args.length ∨
      args.length < requiredCount cls.params) :
    ∃ m, object_constructor registry tag_suffix (.sequence args) =
      .error (.bindError m) := by
  have hbind : ∃ m, bindArgs cls.params args = .error (.bindError m) := by
    rcases hmismatch with h | h
    · exact bindArgs_too_many cls.params args h
    · exact bindArgs_missing cls.params args h
  obtain ⟨m, hm⟩ := hbind
  exact ⟨m, by simp [object_constructor, hloc, hm]⟩

/-- A two-required-parameter class and a one-element sequence body, for
the arity-mismatch witness. -/
def clsXY : PyClass := ⟨[⟨"x", false⟩, ⟨"y", false⟩]⟩

theorem object_constructor_arity_mismatch_fails_witness :
    alook [("pkg.Thing", clsXY)] "pkg.Thing" = some clsXY ∧
    List.length [Val.vint 1] < requiredCount clsXY.params ∧
    ∃ m, object_constructor [("pkg.Thing", clsXY)] "pkg.Thing"
        (.sequence [.vint 1]) = .error (.bindError m) :=
  ⟨rfl, by decide,
   object_constructor_arity_mismatch_fails [("pkg.Thing", clsXY)] "pkg.Thing"
     clsXY [.vint 1] rfl (Or.inr (by decide))⟩

/-- `loader.construct_scalar(node)`: yields the scalar's string, raises a
ConstructorError on any node with children. -/
def constructScalar : YNode → Except PyExc String
  | .scalar s => .ok s
  | _ => .error .nodeError

/-- The result of the multi-constructor: either a constructed object or a
resolved document value. -/
inductive Constructed where
  | obj : Obj → Constructed
  | val : Val → Constructed

/-- `obj_and_ref_constructor(loader, tag_suffix, node)`, closed over the
merged `preview` tree inside `load_extended_yaml`: a tag suffix containing
`$` first checks that the node is a scalar (the returned string is
discarded) and then resolves the tag suffix itself against the whole
document `preview` with a fresh empty reference list; otherwise the node
goes to `object_constructor`. -/
def obj_and_ref_constructor (registry : List (String × PyClass)) (preview : Val)
    (fuel : Nat) (tag_suffix : String) (node : YNode) : Except PyExc Constructed :=
  if strHasDollar tag_suffix then
    match constructScalar node with
    | .error e => .error e
    | .ok _ =>
      match recursive_resolve fuel (.vstr tag_suffix) [] preview with
      | .ok v => .ok (.val v)
      | .error e => .error e
  else
    match object_constructor registry tag_suffix node with
    | .ok o => .ok (.obj o)
    | .error e => .error e

/-- Claim C8: when the tag suffix contains the reference marker `$`, the
dispatcher resolves the tag suffix against the whole document root
(`preview`) with a fresh empty context: the result is exactly the
resolver's result, unchanged whatever the scalar node's content or the
class registry (neither appears in it), and a node with children (mapping
or sequence) is rejected by the scalar check before any resolver or
constructor sees it. -/
theorem dispatcher_reference_tag_uses_document_root
    (registry registry2 : List (String × PyClass)) (preview : Val) (fuel : Nat)
    (tag_suffix : String) (s s2 : String)
    (hd : strHasDollar tag_suffix = true) :
    obj_and_ref_constructor registry preview fuel tag_suffix (.scalar s) =
      (match recursive_resolve fuel (.vstr tag_suffix) [] preview with
       | .ok v => .ok (Constructed.val v)
       | .error e => .error e) ∧
    obj_and_ref_constructor registry preview fuel tag_suffix (.scalar s) =
      obj_and_ref_constructor registry2 preview fuel tag_suffix (.scalar s2) ∧
    (∀ kvs, obj_and_ref_constructor registry preview fuel tag_suffix
      (.mapping kvs) = .error .nodeError) ∧
    (∀ vs, obj_and_ref_constructor registry preview fuel tag_suffix
      (.sequence vs) = .error .nodeError) := by
  refine ⟨?_, ?_, ?_, ?_⟩ <;>
    simp [obj_and_ref_constructor, hd, constructScalar]

theorem dispatcher_reference_tag_uses_document_root_witness :
    strHasDollar "$b" = true ∧
    obj_and_ref_constructor [] doc45 10 "$b" (.scalar "ignored-body") =
      .ok (.val (.vint 3)) :=
  ⟨rfl, by
    rw [(dispatcher_reference_tag_uses_document_root [] [] doc45 10 "$b"
      "ignored-body" "ignored-body" rfl).1]
    rfl⟩
/-- A plain Python value for the override-merge model: a dict (mapping) or
any non-mapping value, collapsed to an integer scalar — `recursive_update`
only ever distinguishes `Mapping` from everything else.  This is the
tree-shaped (alias-free) view of the heap objects; in-place mutation of a
subdict becomes re-attaching the recursion's result at the same key. -/
inductive PT where
  | ps : Int → PT
  | pm : List (String × PT) → PT

/-- Exceptions of the merge routine. -/
inductive UpdExc where
  | attrError : UpdExc   -- `.get` called on a non-mapping
  | typeError : UpdExc   -- item assignment on a non-mapping
  | fuelOut : UpdExc     -- recursion bound exhausted (model artifact)
deriving DecidableEq

/-- The loop body of `recursive_update(d, u)` over the items of `u`
(fuel-bounded):
for `(k, v)` in `u.items()`:
* if `v` is a `Mapping`, run `recursive_update(d.get(k, {}), v)` — when
  `k` is present its current value (dict or scalar) is the target and the
  mutated result re-attaches at `k`; when `k` is absent the target is a
  freshly materialized `{}` whose result is DISCARDED (it is never
  attached to `d`), faithfully reproducing the source; a non-mapping `d`
  has no `.get` and raises AttributeError;
* otherwise `d[k] = v`, which raises TypeError when `d` is not a
  mapping. -/
def ruPure : Nat → PT → List (String × PT) → Except UpdExc PT
  | 0, _, _ => .error .fuelOut
  | fuel + 1, d, items =>
    match items with
    | [] => .ok d
    | (k, v) :: rest =>
      match v with
      | .pm vitems =>
        match d with
        | .ps _ => .error .attrError
        | .pm dl =>
          match alook dl k with
          | some dv =>
            match ruPure fuel dv vitems with
            | .error e => .error e
            | .ok r => ruPure fuel (.pm (aset dl k r)) rest
          | none =>
            match ruPure fuel (.pm []) vitems with
            | .error e => .error e
            | .ok _ => ruPure fuel (.pm dl) rest
      | .ps n =>
        match d with
        | .ps _ => .error .typeError
        | .pm dl => ruPure fuel (.pm (aset dl k (.ps n))) rest

/-- `recursive_update(d, u)` on tree-shaped values: iterate `u.items()`
(a non-mapping `u` has no `.items()`). -/
def recursive_update (fuel : Nat) (d u : PT) : Except UpdExc PT :=
  match u with
  | .pm ul => ruPure fuel d ul
  | .ps _ => .error .attrError

/-- Descend through nested mappings along a key path. -/
def subAt : PT → List String → Option PT
  | t, [] => some t
  | .pm l, s :: p =>
    match alook l s with
    | some t => subAt t p
    | none => none
  | .ps _, _ :: _ => none

/-- Keys are duplicate-free at every mapping level along the given path —
automatically true of anything coming from a Python dict. -/
def pathNodupB : PT → List String → Bool
  | .ps _, _ => true
  | .pm l, [] => decide (l.map Prod.fst).Nodup
  | .pm l, s :: p =>
    decide (l.map Prod.fst).Nodup &&
      (match alook l s with
       | some t => pathNodupB t p
       | none => true)

theorem ruPure_frame (fuel : Nat) :
    ∀ (dl items : List (String × PT)) (r : PT),
      ruPure fuel (.pm dl) items = .ok r →
      ∃ rl, r = .pm rl ∧
        ∀ s, s ∉ items.map Prod.fst → alook rl s = alook dl s := by
  induction fuel with
  | zero => intro dl items r h; simp [ruPure] at h
  | succ n ih =>
    intro dl items r h
    cases items with
    | nil =>
      simp [ruPure] at h
      exact ⟨dl, h.symm, fun s _ => rfl⟩
    | cons kv rest =>
      rcases kv with ⟨k, v⟩
      have hs1 : ∀ s : String, s ∉ ((k, v) :: rest).map Prod.fst → s ≠ k := by
        intro s hs he
        exact hs (by simp [he])
      have hs2 : ∀ s : String, s ∉ ((k, v) :: rest).map Prod.fst →
          s ∉ rest.map Prod.fst := by
        intro s hs hm
        exact hs (by simp [hm])
      cases v with
      | pm vitems =>
        cases halk : alook dl k with
        | some dv =>
          cases hnest : ruPure n dv vitems with
          | error e =>
            simp only [ruPure, halk, hnest] at h
            exact absurd h (by simp)
          | ok r1 =>
            simp only [ruPure, halk, hnest] at h
            obtain ⟨rl, hr, hf⟩ := ih (aset dl k r1) rest r h
            refine ⟨rl, hr, fun s hs => ?_⟩
            rw [hf s (hs2 s hs), alook_aset_ne _ _ _ _ (hs1 s hs)]
        | none =>
          cases hnest : ruPure n (.pm []) vitems with
          | error e =>
            simp only [ruPure, halk, hnest] at h
            exact absurd h (by simp)
          | ok r1 =>
            simp only [ruPure, halk, hnest] at h
            obtain ⟨rl, hr, hf⟩ := ih dl rest r h
            exact ⟨rl, hr, fun s hs => hf s (hs2 s hs)⟩
      | ps m =>
        simp only [ruPure] at h
        obtain ⟨rl, hr, hf⟩ := ih (aset dl k (.ps m)) rest r h
        refine ⟨rl, hr, fun s hs => ?_⟩
        rw [hf s (hs2 s hs), alook_aset_ne _ _ _ _ (hs1 s hs)]

theorem ruPure_at_key (fuel : Nat) :
    ∀ (dl items : List (String × PT)) (r : PT) (k : String)
      (vitems : List (String × PT)) (dv : PT),
      ruPure fuel (.pm dl) items = .ok r →
      (items.map Prod.fst).Nodup →
      (k, PT.pm vitems) ∈ items →
      alook dl k = some dv →
      ∃ fuel' r' rl, ruPure fuel' dv vitems = .ok r' ∧
        r = .pm rl ∧ alook rl k = some r' := by
  induction fuel with
  | zero => intro dl items r k vitems dv h _ _ _; simp [ruPure] at h
  | succ n ih =>
    intro dl items r k vitems dv h hnd hmem halk
    cases items with
    | nil => simp at hmem
    | cons kv rest =>
      rcases kv with ⟨k0, v0⟩
      have hcons : (k0 :: rest.map Prod.fst).Nodup := hnd
      have hnd0 : k0 ∉ rest.map Prod.fst := (List.nodup_cons.mp hcons).1
      have hndr : (rest.map Prod.fst).Nodup := (List.nodup_cons.mp hcons).2
      by_cases hk : k0 = k
      · subst hk
        have hv0 : v0 = PT.pm vitems := by
          rcases List.mem_cons.mp hmem with he | hm
          · injection he with h1 h2
            exact h2.symm
          · exact absurd (List.mem_map.mpr ⟨_, hm, rfl⟩) hnd0
        subst hv0
        cases hnest : ruPure n dv vitems with
        | error e =>
          simp only [ruPure, halk, hnest] at h
          exact absurd h (by simp)
        | ok r1 =>
          simp only [ruPure, halk, hnest] at h
          obtain ⟨rl, hr, hf⟩ := ruPure_frame n (aset dl k0 r1) rest r h
          refine ⟨n, r1, rl, hnest, hr, ?_⟩
          rw [hf k0 hnd0, alook_aset_self]
      · have hmem' : (k, PT.pm vitems) ∈ rest := by
          rcases List.mem_cons.mp hmem with he | hm
          · exact absurd (congrArg Prod.fst he).symm hk
          · exact hm
        have hkne : k ≠ k0 := fun he => hk he.symm
        cases v0 with
        | pm v0items =>
          cases halk0 : alook dl k0 with
          | some dv0 =>
            cases hnest : ruPure n dv0 v0items with
            | error e =>
              simp only [ruPure, halk0, hnest] at h
              exact absurd h (by simp)
            | ok r1 =>
              simp only [ruPure, halk0, hnest] at h
              exact ih (aset dl k0 r1) rest r k vitems dv h hndr hmem'
                (by rw [alook_aset_ne _ _ _ _ hkne]; exact halk)
          | none =>
            cases hnest : ruPure n (.pm []) v0items with
            | error e =>
              simp only [ruPure, halk0, hnest] at h
              exact absurd h (by simp)
            | ok r1 =>
              simp only [ruPure, halk0, hnest] at h
              exact ih dl rest r k vitems dv h hndr hmem' halk
        | ps m =>
          simp only [ruPure] at h
          exact ih (aset dl k0 (.ps m)) rest r k vitems dv h hndr hmem'
            (by rw [alook_aset_ne _ _ _ _ hkne]; exact halk)

/-- Claim C6: `recursive_update(d, u)` preserves, at every depth both
mappings reach, each key of the target that the override's corresponding
level does not mention: if `d` and `u` both hold mappings at path `p`
and the run succeeds, every key absent from `u`'s mapping there keeps
exactly its old binding in the result. -/
theorem recursive_update_preserves_sibling_keys :
    ∀ (p : List String) (fuel : Nat) (d u r : PT)
      (dm um : List (String × PT)),
      pathNodupB u p = true →
      recursive_update fuel d u = .ok r →
      subAt d p = some (.pm dm) →
      subAt u p = some (.pm um) →
      ∃ rm, subAt r p = some (.pm rm) ∧
        ∀ k, alook um k = none → alook rm k = alook dm k := by
  intro p
  induction p with
  | nil =>
    intro fuel d u r dm um hnd h hd hu
    simp only [subAt, Option.some.injEq] at hd hu
    subst hd
    subst hu
    simp only [recursive_update] at h
    obtain ⟨rl, hr, hf⟩ := ruPure_frame fuel dm um r h
    refine ⟨rl, by simp [subAt, hr], fun k hk => ?_⟩
    exact hf k (alook_eq_none um k hk)
  | cons s p' ih =>
    intro fuel d u r dm um hnd h hd hu
    cases u with
    | ps _ => simp [subAt] at hu
    | pm ul =>
      cases hus : alook ul s with
      | none => simp [subAt, hus] at hu
      | some us =>
        have hu' : subAt us p' = some (.pm um) := by
          simpa [subAt, hus] using hu
        cases us with
        | ps m =>
          cases p' with
          | nil => simp [subAt] at hu'
          | cons _ _ => simp [subAt] at hu'
        | pm usl =>
          cases d with
          | ps _ => simp [subAt] at hd
          | pm dl =>
            cases hds : alook dl s with
            | none => simp [subAt, hds] at hd
            | some ds =>
              have hd' : subAt ds p' = some (.pm dm) := by
                simpa [subAt, hds] using hd
              have hnds : (ul.map Prod.fst).Nodup ∧
                  pathNodupB (.pm usl) p' = true := by
                simpa [pathNodupB, hus] using hnd
              have hmem : (s, PT.pm usl) ∈ ul := alook_mem ul s _ hus
              have h0 : ruPure fuel (.pm dl) ul = .ok r := by
                simpa [recursive_update] using h
              obtain ⟨fuel', r', rl, hrun, hr, hrl⟩ :=
                ruPure_at_key fuel dl ul r s usl ds h0 hnds.1 hmem hds
              obtain ⟨rm, hsub, hfr⟩ :=
                ih fuel' ds (.pm usl) r' dm um hnds.2
                  (by simpa [recursive_update] using hrun) hd' hu'
              refine ⟨rm, ?_, hfr⟩
              rw [hr]
              simp [subAt, hrl, hsub]

/-- `{a: 1, b: {c: 2}}`, the merge target of the specification example. -/
def d6 : PT := .pm [("a", .ps 1), ("b", .pm [("c", .ps 2)])]

/-- `{b: {d: 3}}`, the override of the specification example. -/
def u6 : PT := .pm [("b", .pm [("d", .ps 3)])]

/-- `{a: 1, b: {c: 2, d: 3}}`, the merged result of the example. -/
def r6 : PT := .pm [("a", .ps 1), ("b", .pm [("c", .ps 2), ("d", .ps 3)])]

theorem recursive_update_preserves_sibling_keys_witness :
    pathNodupB u6 ["b"] = true ∧
    recursive_update 10 d6 u6 = .ok r6 ∧
    ∃ rm, subAt r6 ["b"] = some (.pm rm) ∧
      ∀ k, alook [("d", PT.ps 3)] k = none →
        alook rm k = alook [("c", PT.ps 2)] k :=
  ⟨rfl, rfl,
   recursive_update_preserves_sibling_keys ["b"] 10 d6 u6 r6
     [("c", .ps 2)] [("d", .ps 3)] rfl rfl rfl rfl⟩
/-- A value held in a dict slot on the explicit object store: a scalar or
a reference to a dict object. -/
inductive HV where
  | hs : Int → HV
  | hr : Nat → HV
deriving DecidableEq

/-- The entries of one dict object. -/
abbrev HDict : Type := List (String × HV)

/-- The object store: address → dict entries, plus the next fresh
address.  This is the aliasing-aware model of `recursive_update`: Python
mutates dict objects in place, so the effect of a call is a store
transformation. -/
structure HState where
  store : List (Nat × HDict)
  next : Nat
deriving DecidableEq

def getD (st : List (Nat × HDict)) (a : Nat) : Option HDict := alook st a

def setD (st : List (Nat × HDict)) (a : Nat) (d : HDict) : List (Nat × HDict) :=
  aset st a d

/-- The loop of `recursive_update(d, u)` over a snapshot of `u.items()`,
on the object store (fuel-bounded; fuel only models Python's recursion
limit).  `d` is the first argument object.  For each `(k, v)`:
* `v` a dict reference: evaluate `d.get(k, {})` — AttributeError if `d`
  is not a dict; the existing value at `k` if present; otherwise a
  freshly allocated `{}` (which is never attached to `d`, exactly as in
  the source) — then recurse on it with `v`'s current entries;
* `v` a scalar: `d[k] = v` — TypeError if `d` is not a dict, otherwise
  an in-place store update.
The store is returned even when an exception is raised, since a Python
exception leaves all mutations performed so far in place. -/
def recUpdA : Nat → HV → List (String × HV) → HState → Option UpdExc × HState
  | 0, _, _, σ => (some .fuelOut, σ)
  | fuel + 1, d, items, σ =>
    match items with
    | [] => (none, σ)
    | (k, v) :: rest =>
      match v with
      | .hr b =>
        match d with
        | .hs _ => (some .attrError, σ)
        | .hr a =>
          match getD σ.store a with
          | none => (some .attrError, σ)
          | some dl =>
            match alook dl k with
            | some dv =>
              -- k present: its current value is the recursion target
              match getD σ.store b with
              | none => (some .attrError, σ)
              | some bItems =>
                match recUpdA fuel dv bItems σ with
                | (some e, σ') => (some e, σ')
                | (none, σ') => recUpdA fuel d rest σ'
            | none =>
              -- k absent: a fresh empty dict is allocated at `next`,
              -- merged into, and never attached to `d`
              match getD (setD σ.store σ.next []) b with
              | none =>
                (some .attrError, ⟨setD σ.store σ.next [], σ.next + 1⟩)
              | some bItems =>
                match recUpdA fuel (.hr σ.next) bItems
                    ⟨setD σ.store σ.next [], σ.next + 1⟩ with
                | (some e, σ') => (some e, σ')
                | (none, σ') => recUpdA fuel d rest σ'
      | .hs n =>
        match d with
        | .hs _ => (some .typeError, σ)
        | .hr a =>
          match getD σ.store a with
          | none => (some .typeError, σ)
          | some dl =>
            recUpdA fuel d rest ⟨setD σ.store a (aset dl k (.hs n)), σ.next⟩

/-- `recursive_update(d, u)` on the object store, `d` and `u` given by the
addresses of their dict objects. -/
def recursive_update_heap (fuel : Nat) (dA uA : Nat) (σ : HState) :
    Option UpdExc × HState :=
  match getD σ.store uA with
  | none => (some .attrError, σ)
  | some items => recUpdA fuel (.hr dA) items σ

/-- The store of the missing-key regression input: `d = {}` at address 0,
`u = {'a': {'b': 2}}` with its nested dict at address 2. -/
def sigC2 : HState :=
  ⟨[(0, ([] : HDict)), (1, [("a", HV.hr 2)]), (2, [("b", HV.hs 2)])], 3⟩

/-- Claim C2 (refuted — the code has the aliasing bug the specification
guards against): merging `u = {'a': {'b': 2}}` into `d = {}` completes
without error, yet `d` is left empty — the nested structure is merged
into the freshly materialized default dict (address 3), which is never
attached to `d`, so the update is silently discarded.  The claim (and the
function's own `dict.update` docstring, and the TODO note above the loop)
require `d` to end up with key `a` bound to `{'b': 2}`. -/
theorem recursive_update_drops_new_nested_key :
    (recursive_update_heap 10 0 1 sigC2).1 = none ∧
    getD (recursive_update_heap 10 0 1 sigC2).2.store 0 = some [] ∧
    getD (recursive_update_heap 10 0 1 sigC2).2.store 3 =
      some [("b", HV.hs 2)] :=
  ⟨rfl, rfl, rfl⟩
/-- A slot value only references addresses at or above `B`. -/
def hvGe (B : Nat) : HV → Bool
  | .hs _ => true
  | .hr a => decide (B ≤ a)

/-- A slot value only references addresses strictly below `B`. -/
def hvLt (B : Nat) : HV → Bool
  | .hs _ => true
  | .hr a => decide (a < B)

/-- Every dict object stored at an address `≥ B` references only
addresses `≥ B` (the target side of a store partitioned at `B`). -/
def highClosedB (B : Nat) (st : List (Nat × HDict)) : Bool :=
  st.all fun p => decide (p.1 < B) || p.2.all fun kv => hvGe B kv.2

/-- Every dict object stored at an address `< B` references only
addresses `< B` (the override side of a store partitioned at `B`). -/
def lowClosedB (B : Nat) (st : List (Nat × HDict)) : Bool :=
  st.all fun p => decide (B ≤ p.1) || p.2.all fun kv => hvLt B kv.2

theorem highClosedB_entry (B : Nat) (st : List (Nat × HDict)) (a : Nat)
    (dl : HDict) (k : String) (v : HV)
    (hc : highClosedB B st = true) (hget : getD st a = some dl)
    (ha : B ≤ a) (hmem : (k, v) ∈ dl) : hvGe B v = true := by
  have hmem' : (a, dl) ∈ st := alook_mem st a dl hget
  have hp := List.all_eq_true.mp hc (a, dl) hmem'
  rcases Bool.or_eq_true_iff.mp hp with hlt | hall
  · exact absurd (of_decide_eq_true hlt) (by omega)
  · exact List.all_eq_true.mp hall (k, v) hmem

theorem highClosedB_setD (B : Nat) (st : List (Nat × HDict)) (a : Nat)
    (d' : HDict) (hc : highClosedB B st = true)
    (hd : ∀ kv ∈ d', hvGe B kv.2 = true) :
    highClosedB B (setD st a d') = true := by
  rw [highClosedB, List.all_eq_true]
  intro p hp
  rcases aset_mem st a d' p hp with hin | heq
  · exact List.all_eq_true.mp hc p hin
  · subst heq
    rcases Nat.lt_or_ge a B with hlt | hge
    · simp [hlt]
    · simp only [Bool.or_eq_true]
      right
      rw [List.all_eq_true]
      intro kv hkv
      exact hd kv hkv

theorem recUpdA_frame (B : Nat) :
    ∀ (fuel : Nat) (d : HV) (items : List (String × HV)) (σ : HState),
      highClosedB B σ.store = true → B ≤ σ.next → hvGe B d = true →
      (highClosedB B (recUpdA fuel d items σ).2.store = true ∧
       B ≤ (recUpdA fuel d items σ).2.next ∧
       ∀ a, a < B →
         getD (recUpdA fuel d items σ).2.store a = getD σ.store a) := by
  intro fuel
  induction fuel with
  | zero =>
    intro d items σ h1 h2 _
    exact ⟨h1, h2, fun a _ => rfl⟩
  | succ n ih =>
    intro d items σ h1 h2 h3
    cases items with
    | nil => exact ⟨h1, h2, fun a _ => rfl⟩
    | cons kv rest =>
      rcases kv with ⟨k, v⟩
      cases v with
      | hs m =>
        cases d with
        | hs _ => exact ⟨h1, h2, fun a _ => rfl⟩
        | hr a0 =>
          have ha0 : B ≤ a0 := of_decide_eq_true (by simpa [hvGe] using h3)
          cases hgd : getD σ.store a0 with
          | none => simp only [recUpdA, hgd]; exact ⟨h1, h2, fun a _ => by trivial⟩
          | some dl =>
            have h1' : highClosedB B (setD σ.store a0 (aset dl k (.hs m))) = true := by
              refine highClosedB_setD B σ.store a0 _ h1 ?_
              intro kv hkv
              rcases aset_mem dl k (.hs m) kv hkv with hin | heq
              · exact highClosedB_entry B σ.store a0 dl kv.1 kv.2 h1 hgd ha0
                  (by rcases kv with ⟨x, y⟩; exact hin)
              · subst heq; rfl
            obtain ⟨g1, g2, g3⟩ :=
              ih (.hr a0) rest ⟨setD σ.store a0 (aset dl k (.hs m)), σ.next⟩ h1' h2 h3
            simp only [recUpdA, hgd]
            refine ⟨g1, g2, fun a ha => ?_⟩
            rw [g3 a ha]
            show getD (setD σ.store a0 _) a = getD σ.store a
            exact alook_aset_ne σ.store a0 a _ (by omega)
      | hr b =>
        cases d with
        | hs _ => exact ⟨h1, h2, fun a _ => rfl⟩
        | hr a0 =>
          have ha0 : B ≤ a0 := of_decide_eq_true (by simpa [hvGe] using h3)
          cases hgd : getD σ.store a0 with
          | none => simp only [recUpdA, hgd]; exact ⟨h1, h2, fun a _ => by trivial⟩
          | some dl =>
            cases halk : alook dl k with
            | some dv =>
              have hdv : hvGe B dv = true :=
                highClosedB_entry B σ.store a0 dl k dv h1 hgd ha0
                  (alook_mem dl k dv halk)
              cases hgb : getD σ.store b with
              | none =>
                simp only [recUpdA, hgd, halk, hgb]
                exact ⟨h1, h2, fun a _ => by trivial⟩
              | some bItems =>
                obtain ⟨g1, g2, g3⟩ := ih dv bItems σ h1 h2 hdv
                rcases hres : recUpdA n dv bItems σ with ⟨oe, σ'⟩
                rw [hres] at g1 g2 g3
                cases oe with
                | some e =>
                  simp only [recUpdA, hgd, halk, hgb, hres]
                  exact ⟨g1, g2, g3⟩
                | none =>
                  obtain ⟨f1, f2, f3⟩ := ih (.hr a0) rest σ' g1 g2 h3
                  simp only [recUpdA, hgd, halk, hgb, hres]
                  refine ⟨f1, f2, fun a ha => ?_⟩
                  rw [f3 a ha, g3 a ha]
            | none =>
              have h1a : highClosedB B (setD σ.store σ.next []) = true :=
                highClosedB_setD B σ.store σ.next [] h1 (by intro kv hkv; simp at hkv)
              have h2a : B ≤ σ.next + 1 := by omega
              have h3a : hvGe B (.hr σ.next) = true := by
                simp [hvGe]; omega
              cases hgb : getD (setD σ.store σ.next []) b with
              | none =>
                simp only [recUpdA, hgd, halk, hgb]
                refine ⟨h1a, h2a, fun a ha => ?_⟩
                show getD (setD σ.store σ.next []) a = getD σ.store a
                exact alook_aset_ne σ.store σ.next a _ (by omega)
              | some bItems =>
                obtain ⟨g1, g2, g3⟩ :=
                  ih (.hr σ.next) bItems ⟨setD σ.store σ.next [], σ.next + 1⟩ h1a h2a h3a
                rcases hres : recUpdA n (.hr σ.next) bItems
                    ⟨setD σ.store σ.next [], σ.next + 1⟩ with ⟨oe, σ'⟩
                rw [hres] at g1 g2 g3
                have gstep : ∀ a, a < B → getD σ'.store a = getD σ.store a := by
                  intro a ha
                  rw [g3 a ha]
                  show getD (setD σ.store σ.next []) a = getD σ.store a
                  exact alook_aset_ne σ.store σ.next a _ (by omega)
                cases oe with
                | some e =>
                  simp only [recUpdA, hgd, halk, hgb, hres]
                  exact ⟨g1, g2, gstep⟩
                | none =>
                  obtain ⟨f1, f2, f3⟩ := ih (.hr a0) rest σ' g1 g2 h3
                  simp only [recUpdA, hgd, halk, hgb, hres]
                  refine ⟨f1, f2, fun a ha => ?_⟩
                  rw [f3 a ha, gstep a ha]
/-- Claim C10: `recursive_update(d, u)` never modifies the override `u`;
all mutation stays on the target's side of the store.  The hypotheses
state the separation that holds in `load_extended_yaml` (the freshly
parsed `preview` shares no object with the caller's `overrides`): the
store is partitioned at `B`, with `u`'s whole object graph below `B` and
closed below `B` (`lowClosedB`), and `d`'s whole object graph at or above
`B` and closed there (`highClosedB`).  Every dict object below `B` — in
particular every dict reachable from `u` — is unchanged when the call
returns, whether it succeeds or raises, so the same override mapping can
be reused across load calls. -/
theorem recursive_update_leaves_override_unchanged
    (B fuel dA uA : Nat) (σ : HState) (a : Nat)
    (hHigh : highClosedB B σ.store = true)
    (hLow : lowClosedB B σ.store = true)
    (hnext : B ≤ σ.next) (hdA : B ≤ dA) (huA : uA < B) (ha : a < B) :
    getD (recursive_update_heap fuel dA uA σ).2.store a = getD σ.store a := by
  unfold recursive_update_heap
  cases hgu : getD σ.store uA with
  | none => rfl
  | some items =>
    have h3 : hvGe B (.hr dA) = true := by
      simp only [hvGe, decide_eq_true_eq]
      omega
    exact (recUpdA_frame B fuel (.hr dA) items σ hHigh hnext h3).2.2 a ha

/-- A partitioned store for the frame witness: the override
`u = {'b': {'d': 3}}` lives at addresses 0 and 1 (below the boundary 10);
the target `d = {'a': 1, 'b': {'c': 2}}` lives at addresses 10 and 11. -/
def sigC10 : HState :=
  ⟨[(0, [("b", HV.hr 1)]), (1, [("d", HV.hs 3)]),
    (10, [("a", HV.hs 1), ("b", HV.hr 11)]), (11, [("c", HV.hs 2)])], 12⟩

theorem recursive_update_leaves_override_unchanged_witness :
    highClosedB 10 sigC10.store = true ∧
    lowClosedB 10 sigC10.store = true ∧
    (recursive_update_heap 20 10 0 sigC10).1 = none ∧
    getD (recursive_update_heap 20 10 0 sigC10).2.store 11 =
      some [("c", HV.hs 2), ("d", HV.hs 3)] ∧
    getD (recursive_update_heap 20 10 0 sigC10).2.store 0 =
      getD sigC10.store 0 ∧
    getD (recursive_update_heap 20 10 0 sigC10).2.store 1 =
      getD sigC10.store 1 :=
  ⟨by decide, by decide, rfl, rfl,
   recursive_update_leaves_override_unchanged 10 20 10 0 sigC10 0
     (by decide) (by decide) (by decide) (by decide) (by decide) (by decide),
   recursive_update_leaves_override_unchanged 10 20 10 0 sigC10 1
     (by decide) (by decide) (by decide) (by decide) (by decide) (by decide)⟩
